import Mathlib

/-!
Verification of the md5dir tool (`md5dir/md5dir.py`).

The development shallowly embeds the two core classes of the source:

* `HashList`  — list of `(relative path, md5 digest)` pairs, with parsing
  (`read_file`), serialization (`write_file`, `lines`, `justify`),
  equality (`eqMut`, modelling the in-place sorting `__eq__`), and
  diffing (`diff`, `compare`, on top of a model of
  `difflib.unified_diff`).
* `Directory` — deterministic traversal of a directory tree
  (`get_filepaths`, modelling `os.walk` with the sorted dirnames and
  filenames of `Directory._get_filepaths`), and the two hashing modes
  (`md5`, `md5_list`).  The md5 function itself is a parameter
  `md5hex : List Nat → String` (a function of the file bytes); the
  running-accumulator aggregate digest is modelled as `md5hex` of the
  concatenation of all included files' bytes in traversal order.

File contents are modelled as `String`s (character streams); the file
system is modelled by the tree type `FsTree` whose directory entries
carry their byte contents, plus a boolean `isRegularFile` for the
existence check of `read_file`.
-/

/-- Whitespace characters recognised by Python `str.split()` with no
arguments (the ASCII ones; these are the only ones the tool writes). -/
def isPySpace (c : Char) : Bool :=
  c = ' ' || c = '\t' || c = '\n' || c = '\r' || c = '\x0b' || c = '\x0c'

/-- Model of Python `str.split()` (no separator): split a character list
on runs of whitespace, discarding empty pieces. -/
def splitWS : List Char → List (List Char)
  | [] => []
  | [c] => if isPySpace c then [] else [[c]]
  | c :: d :: cs =>
    if isPySpace c then splitWS (d :: cs)
    else if isPySpace d then [c] :: splitWS (d :: cs)
    else
      match splitWS (d :: cs) with
      | [] => [[c]]
      | t :: ts => (c :: t) :: ts

/-- Model of Python `file.readlines()`: cut a character stream into
lines, each line keeping its terminating newline (a final line without
a newline is kept as well). -/
def splitLines : List Char → List (List Char)
  | [] => []
  | c :: cs =>
    if c = '\n' then ['\n'] :: splitLines cs
    else
      match splitLines cs with
      | [] => [[c]]
      | t :: ts => (c :: t) :: ts

/-- Model of Python `str.startswith`. -/
def pyStartswith (s pre : String) : Bool :=
  pre.data.isPrefixOf s.data

/-- `"{}".format` of an `Optional[str]`: Python renders `None` as the
string `"None"`. -/
def pyFormatOpt : Option String → String
  | none => "None"
  | some s => s

/-- The three failure modes of `HashList.read_file` (the source raises
at three distinct sites: the `isfile` check, the emptiness check, and
the two-token `assert`); the spec names them `NotFoundError`,
`EmptyInputError` and `MalformedLineError`. -/
inductive ReadError where
  | notFound
  | emptyInput
  | malformedLine
  deriving DecidableEq

/-- Sequential fallible map, modelling the parsing loop of
`read_file`: the first failing line aborts the whole parse. -/
def mapMExcept {α β ε : Type} (f : α → Except ε β) : List α → Except ε (List β)
  | [] => Except.ok []
  | a :: as =>
    match f a with
    | Except.error e => Except.error e
    | Except.ok b =>
      match mapMExcept f as with
      | Except.error e => Except.error e
      | Except.ok bs => Except.ok (b :: bs)

instance {ε α : Type} [DecidableEq ε] [DecidableEq α] : DecidableEq (Except ε α) := fun
  | Except.ok a, Except.ok b =>
    if h : a = b then isTrue (by rw [h])
    else isFalse (by intro he; injection he; contradiction)
  | Except.ok _, Except.error _ => isFalse (fun h => Except.noConfusion h)
  | Except.error _, Except.ok _ => isFalse (fun h => Except.noConfusion h)
  | Except.error e1, Except.error e2 =>
    if h : e1 = e2 then isTrue (by rw [h])
    else isFalse (by intro he; injection he; contradiction)

/-- The `HashList` class: the entry sequence `hashlist` and the origin
label `dirpath` (the directory the list was computed from, `None` for a
fresh list). -/
structure HashList where
  hashlist : List (String × String)
  dirpath : Option String
  deriving DecidableEq

/-- `HashList.add`: append one `(relative path, digest)` doublet. -/
def HashList.add (h : HashList) (doublet : String × String) : HashList :=
  { h with hashlist := h.hashlist ++ [doublet] }

/-- Parsing of one content line of a hash-list file:
`splitted = line.split(); assert len(splitted) == 2`. -/
def parseLine (l : List Char) : Except ReadError (String × String) :=
  match splitWS l with
  | [a, b] => Except.ok (⟨a⟩, ⟨b⟩)
  | _ => Except.error ReadError.malformedLine

/-- The two tokens of a well-formed content line (used to state what a
successful parse stores). -/
def parsedPair (l : List Char) : String × String :=
  (⟨(splitWS l).getD 0 []⟩, ⟨(splitWS l).getD 1 []⟩)

/-- The lines of the file that survive the comment filter
`[line for line in f.readlines() if not line.startswith("#")]`. -/
def contentLines (content : String) : List (List Char) :=
  (splitLines content.data).filter (fun l => !(['#'].isPrefixOf l))

/-- Body of `HashList.read_file` after the `isfile` check: filter out
comment lines, fail on empty content, then parse every line. -/
def HashList.parseContent (content : String) : Except ReadError (List (String × String)) :=
  let ls := contentLines content
  if ls.isEmpty then Except.error ReadError.emptyInput
  else mapMExcept parseLine ls

/-- `HashList.read_file`: `isRegularFile` is the result of the
`os.path.isfile` check, `content` the text of the file.  On success the
entry sequence is replaced by the parsed entries; the rest of the
state (in particular `dirpath`) is untouched, as in the source. -/
def HashList.read_file (h : HashList) (isRegularFile : Bool) (content : String) :
    Except ReadError HashList :=
  if !isRegularFile then Except.error ReadError.notFound
  else (HashList.parseContent content).map (fun entries => { h with hashlist := entries })

/-- `n` spaces. -/
def spacesStr (n : Nat) : String :=
  ⟨List.replicate n ' '⟩

/-- The `longest` accumulator of `HashList._justify`: length of the
longest path of the list. -/
def longestLen (md5_list : List (String × String)) : Nat :=
  md5_list.foldl (fun acc p => if p.1.length > acc then p.1.length else acc) 0

/-- `HashList._justify`: pad every path to the length of the longest
path, plus a fixed minimal gap of `min_dist` spaces. -/
def HashList.justify (md5_list : List (String × String)) (min_dist : Nat) :
    List (String × String × String) :=
  md5_list.map (fun p => (p.1, spacesStr (longestLen md5_list - p.1.length + min_dist), p.2))

/-- `HashList.lines`: the justified text lines `path ++ spaces ++ md5`,
in the current in-memory entry order. -/
def HashList.lines (h : HashList) : List String :=
  (HashList.justify h.hashlist 5).map (fun t => t.1 ++ t.2.1 ++ t.2.2)

/-- `HashList.write_file`: the full text written to the destination
file — one comment line naming the origin, then every justified line,
each terminated by a newline. -/
def HashList.write_file (h : HashList) : String :=
  h.lines.foldl (fun acc line => acc ++ line ++ "\n")
    ("# Sommes md5 de " ++ pyFormatOpt h.dirpath ++ "\n")

/-- Strict lexicographic comparison of character lists by code point:
Python's `<` on strings. -/
def strLtB : List Char → List Char → Bool
  | [], [] => false
  | [], _ :: _ => true
  | _ :: _, [] => false
  | c :: cs, d :: ds =>
    if c < d then true
    else if d < c then false
    else strLtB cs ds

/-- The propositional form of `strLtB`. -/
def strLt (a b : List Char) : Prop :=
  strLtB a b = true

instance (a b : List Char) : Decidable (strLt a b) :=
  inferInstanceAs (Decidable (strLtB a b = true))

/-- Python's `<=` on `(path, digest)` tuples: lexicographic, paths
first, digests as tiebreak.  `list.sort()` orders by this relation. -/
def tupleLe (x y : String × String) : Prop :=
  strLt x.1.data y.1.data ∨ (x.1 = y.1 ∧ (strLt x.2.data y.2.data ∨ x.2 = y.2))

instance : DecidableRel tupleLe := fun x y =>
  inferInstanceAs (Decidable (strLt x.1.data y.1.data ∨ (x.1 = y.1 ∧ (strLt x.2.data y.2.data ∨ x.2 = y.2))))

/-- Comparison of name-keyed pairs by Python's `<=` on the name only
(used for `dirnames.sort()` and `filenames.sort()`). -/
def nameLe {α : Type} (x y : String × α) : Prop :=
  strLt x.1.data y.1.data ∨ x.1 = y.1

instance {α : Type} : DecidableRel (@nameLe α) := fun x y =>
  inferInstanceAs (Decidable (strLt x.1.data y.1.data ∨ x.1 = y.1))

/-- Model of Python's stable `list.sort()` on `(path, digest)` tuples:
any stable sort produces the same output, so insertion sort stands in
for timsort. -/
def pySort (l : List (String × String)) : List (String × String) :=
  l.insertionSort tupleLe

/-- `HashList.__eq__` with its side effect: both operands' entry
sequences are sorted in place, then compared; the result is
`(mutated self, mutated other, comparison result)`. -/
def HashList.eqMut (h1 h2 : HashList) : HashList × HashList × Bool :=
  let s1 := { h1 with hashlist := pySort h1.hashlist }
  let s2 := { h2 with hashlist := pySort h2.hashlist }
  (s1, s2, decide (s1.hashlist = s2.hashlist))

/-- The boolean verdict of `HashList.__eq__` (`equals` in the spec). -/
def HashList.equals (h1 h2 : HashList) : Bool :=
  (HashList.eqMut h1 h2).2.2

/-- Opcode tags of `difflib.SequenceMatcher.get_opcodes`. -/
inductive DTag where
  | equal
  | replace
  | delete
  | insert
  deriving DecidableEq

/-- One opcode `(tag, i1, i2, j1, j2)`: positions `i1..i2` of the first
sequence correspond to positions `j1..j2` of the second. -/
structure Opcode where
  tag : DTag
  i1 : Nat
  i2 : Nat
  j1 : Nat
  j2 : Nat
  deriving DecidableEq

/-- Length of the longest common initial run of two line sequences. -/
def commonPreLen : List String → List String → Nat
  | x :: xs, y :: ys => if x = y then commonPreLen xs ys + 1 else 0
  | _, _ => 0

/-- Model of `difflib.SequenceMatcher.get_opcodes`, the matching-block
computation behind `unified_diff`: a common initial run, a common final
run, and the changed middle.  It agrees with difflib whenever the two
sequences differ in at most one contiguous region, and in particular —
the only case any theorem below relies on — it returns a single
`equal` opcode (or nothing, for two empty sequences) exactly when the
sequences are identical, as the real matcher does. -/
def get_opcodes (a b : List String) : List Opcode :=
  let p := commonPreLen a b
  let ra := a.drop p
  let rb := b.drop p
  let s := commonPreLen ra.reverse rb.reverse
  let ma := ra.length - s
  let mb := rb.length - s
  (if 0 < p then [⟨DTag.equal, 0, p, 0, p⟩] else [])
    ++ (if 0 < ma ∧ 0 < mb then [⟨DTag.replace, p, p + ma, p, p + mb⟩]
        else if 0 < ma then [⟨DTag.delete, p, p + ma, p, p⟩]
        else if 0 < mb then [⟨DTag.insert, p, p, p, p + mb⟩]
        else [])
    ++ (if 0 < s then [⟨DTag.equal, p + ma, p + ma + s, p + mb, p + mb + s⟩] else [])

/-- First step of `get_grouped_opcodes`: shrink a leading `equal`
opcode to at most `n` lines of context. -/
def adjustFirst (n : Nat) : List Opcode → List Opcode
  | [] => []
  | c :: rest =>
    if c.tag = DTag.equal then
      ⟨c.tag, max c.i1 (c.i2 - n), c.i2, max c.j1 (c.j2 - n), c.j2⟩ :: rest
    else c :: rest

/-- Second step of `get_grouped_opcodes`: shrink a trailing `equal`
opcode to at most `n` lines of context. -/
def adjustLast (n : Nat) (l : List Opcode) : List Opcode :=
  match l.getLast? with
  | none => []
  | some c =>
    l.dropLast
      ++ [if c.tag = DTag.equal then
            ⟨c.tag, c.i1, min c.i2 (c.i1 + n), c.j1, min c.j2 (c.j1 + n)⟩
          else c]

/-- The grouping loop of `get_grouped_opcodes`: split at `equal` runs
longer than `2 n`, and drop a final group consisting of one `equal`
opcode. -/
def groupLoop (n : Nat) : List Opcode → List Opcode → List (List Opcode)
  | acc, [] =>
    match acc with
    | [] => []
    | [c] => if c.tag = DTag.equal then [] else [[c]]
    | _ => [acc]
  | acc, c :: rest =>
    if c.tag = DTag.equal ∧ n + n < c.i2 - c.i1 then
      (acc ++ [⟨DTag.equal, c.i1, min c.i2 (c.i1 + n), c.j1, min c.j2 (c.j1 + n)⟩])
        :: groupLoop n [⟨c.tag, max c.i1 (c.i2 - n), c.i2, max c.j1 (c.j2 - n), c.j2⟩] rest
  else groupLoop n (acc ++ [c]) rest

/-- Model of `difflib.SequenceMatcher.get_grouped_opcodes`. -/
def get_grouped_opcodes (n : Nat) (a b : List String) : List (List Opcode) :=
  let codes0 := get_opcodes a b
  let codes := if codes0.isEmpty then [⟨DTag.equal, 0, 1, 0, 1⟩] else codes0
  groupLoop n [] (adjustLast n (adjustFirst n codes))

/-- `difflib._format_range_unified`. -/
def formatRangeUnified (start stop : Nat) : String :=
  let length := stop - start
  if length = 1 then toString (start + 1)
  else if length = 0 then toString start ++ ",0"
  else toString (start + 1) ++ "," ++ toString length

/-- The Python slice `l[i:j]`. -/
def sliceStrs (l : List String) (i j : Nat) : List String :=
  (l.drop i).take (j - i)

/-- The `@@ -… +… @@` header of one hunk. -/
def hunkHeader (g : List Opcode) : String :=
  match g.head?, g.getLast? with
  | some first, some last =>
    "@@ -" ++ formatRangeUnified first.i1 last.i2 ++ " +"
      ++ formatRangeUnified first.j1 last.j2 ++ " @@\n"
  | _, _ => ""

/-- The body lines of one hunk: context, removals, insertions. -/
def hunkBody (a b : List String) (g : List Opcode) : List String :=
  g.flatMap (fun c =>
    match c.tag with
    | DTag.equal => (sliceStrs a c.i1 c.i2).map (fun line => " " ++ line)
    | DTag.replace =>
      (sliceStrs a c.i1 c.i2).map (fun line => "-" ++ line)
        ++ (sliceStrs b c.j1 c.j2).map (fun line => "+" ++ line)
    | DTag.delete => (sliceStrs a c.i1 c.i2).map (fun line => "-" ++ line)
    | DTag.insert => (sliceStrs b c.j1 c.j2).map (fun line => "+" ++ line))

/-- Model of `difflib.unified_diff(a, b, fromfile, tofile, n)` with the
default line terminator: the `---`/`+++` headers are emitted lazily,
only if at least one hunk group exists. -/
def unified_diff (a b : List String) (fromfile tofile : String) (n : Nat) : List String :=
  match get_grouped_opcodes n a b with
  | [] => []
  | groups =>
    ("--- " ++ fromfile ++ "\n") :: ("+++ " ++ tofile ++ "\n")
      :: groups.flatMap (fun g => hunkHeader g :: hunkBody a b g)

/-- `HashList.diff`: join of all lines produced by `unified_diff` over
the rendered (justified) `lines()` of the two lists, with `n = 0` and
the two origin labels as file names. -/
def HashList.diff (h1 h2 : HashList) : String :=
  String.intercalate "\n"
    (unified_diff h1.lines h2.lines (pyFormatOpt h1.dirpath) (pyFormatOpt h2.dirpath) 0)

/-- `HashList.compare` with the side effect of the `__eq__` it invokes:
both operands come back sorted, and the report is the fixed
"identical" message, or a header followed by the diff of the (by then
sorted) lists. -/
def HashList.compare (h1 h2 : HashList) : HashList × HashList × String :=
  let r := HashList.eqMut h1 h2
  if r.2.2 then (r.1, r.2.1, "Les sommes md5 sont identiques.\n")
  else (r.1, r.2.1, "Les sommes md5 sont différentes!\n\n" ++ HashList.diff r.1 r.2.1)

mutual
/-- A directory: named files with their byte contents, and named
subdirectories.  (Bytes are modelled as `Nat`s; only their identity
matters.) -/
inductive FsTree where
  | node (files : List (String × List Nat)) (subdirs : FsForest)
/-- The subdirectory sequence of a directory, in raw listing order. -/
inductive FsForest where
  | nil
  | cons (name : String) (tree : FsTree) (rest : FsForest)
end

/-- The subdirectories as a list of named trees. -/
def FsForest.toList : FsForest → List (String × FsTree)
  | FsForest.nil => []
  | FsForest.cons name tree rest => (name, tree) :: FsForest.toList rest

/-- Rebuild a forest from a list of named trees. -/
def forestOf : List (String × FsTree) → FsForest
  | [] => FsForest.nil
  | (name, tree) :: rest => FsForest.cons name tree (forestOf rest)

/-- Model of Python's stable `list.sort()` on name-keyed pairs, as used
on `dirnames` and `filenames` (which in a real file system are
duplicate-free, so the pairing with contents is unambiguous). -/
def sortPairs {α : Type} (l : List (String × α)) : List (String × α) :=
  l.insertionSort nameLe

mutual
/-- `Directory._get_filepaths` (with `os.walk`): files of the current
directory first, in sorted name order and filtered by the hidden-file
rule, then the files of each subdirectory, subdirectories in sorted
name order, depth first.  Each entry is the relative path of a file as
its list of components, paired with the file's bytes.  Directories are
never filtered, only files are. -/
def Directory.walkTree (include_hidden : Bool) : FsTree → List (List String × List Nat)
  | FsTree.node files subdirs =>
    ((sortPairs files).filter (fun f => include_hidden || !pyStartswith f.1 ".")).map
      (fun f => ([f.1], f.2))
      ++ (sortPairs (Directory.walkForest include_hidden subdirs)).flatMap
          (fun d => d.2.map (fun e => (d.1 :: e.1, e.2)))
/-- The walks of all subdirectories, keyed by their names (the walk of
a subdirectory depends only on that subdirectory, so computing them
before sorting by name yields exactly the sorted-descent order of the
source). -/
def Directory.walkForest (include_hidden : Bool) :
    FsForest → List (String × List (List String × List Nat))
  | FsForest.nil => []
  | FsForest.cons name tree rest =>
    (name, Directory.walkTree include_hidden tree)
      :: Directory.walkForest include_hidden rest
end

/-- The generator `Directory._get_filepaths` on the root directory. -/
def Directory.get_filepaths (include_hidden : Bool) (t : FsTree) :
    List (List String × List Nat) :=
  Directory.walkTree include_hidden t

/-- `os.path.relpath`-style rendering of a component path. -/
def relPathStr (comps : List String) : String :=
  String.intercalate "/" comps

/-- `Directory.md5`: one running accumulator updated with every
included file's bytes in traversal order; extensionally, the digest of
the concatenation of those bytes. -/
def Directory.md5 (md5hex : List Nat → String) (t : FsTree) (include_hidden : Bool) : String :=
  md5hex (((Directory.get_filepaths include_hidden t).map Prod.snd).flatten)

/-- `Directory.md5_list`: one digest per included file, collected into
a `HashList` labelled with the directory path. -/
def Directory.md5_list (md5hex : List Nat → String) (root : String) (t : FsTree)
    (include_hidden : Bool) : HashList :=
  { hashlist := (Directory.get_filepaths include_hidden t).map
      (fun e => (relPathStr e.1, md5hex e.2)),
    dirpath := some root }

mutual
/-- Canonical form of a directory snapshot: files and subdirectories
sorted by name at every level.  Two snapshots have the same canonical
form exactly when they hold the same entries with the same contents,
possibly listed in different raw orders at each level. -/
def canonTree : FsTree → FsTree
  | FsTree.node files subdirs =>
    FsTree.node (sortPairs files) (forestOf (sortPairs (canonForest subdirs)))
/-- Canonical forms of all subdirectories, keyed by name. -/
def canonForest : FsForest → List (String × FsTree)
  | FsForest.nil => []
  | FsForest.cons name tree rest => (name, canonTree tree) :: canonForest rest
end

/-- `FileIn comps bs t`: the tree `t` contains a file with byte
contents `bs` at the relative component path `comps`. -/
inductive FileIn : List String → List Nat → FsTree → Prop where
  | here {name bs files subdirs} : (name, bs) ∈ files →
      FileIn [name] bs (FsTree.node files subdirs)
  | there {dname sub comps bs files subdirs} : (dname, sub) ∈ FsForest.toList subdirs →
      FileIn comps bs sub → FileIn (dname :: comps) bs (FsTree.node files subdirs)

mutual
/-- Induction measure on trees. -/
def treeSize : FsTree → Nat
  | FsTree.node _ subdirs => 1 + forestSize subdirs
/-- Induction measure on forests. -/
def forestSize : FsForest → Nat
  | FsForest.nil => 0
  | FsForest.cons _ tree rest => 1 + treeSize tree + forestSize rest
end

/-- A small directory snapshot used as a concrete test tree: files
`b`, `a` at the root, a subdirectory `z` with files `y`, `x`, and an
empty subdirectory `c`. -/
def demoTree1 : FsTree :=
  FsTree.node [("b", [2]), ("a", [1])]
    (FsForest.cons "z" (FsTree.node [("y", [3]), ("x", [4])] FsForest.nil)
      (FsForest.cons "c" (FsTree.node [] FsForest.nil) FsForest.nil))

/-- The same snapshot as `demoTree1` with every directory listing
enumerated in a different raw order. -/
def demoTree2 : FsTree :=
  FsTree.node [("a", [1]), ("b", [2])]
    (FsForest.cons "c" (FsTree.node [] FsForest.nil)
      (FsForest.cons "z" (FsTree.node [("x", [4]), ("y", [3])] FsForest.nil) FsForest.nil))

/-! ### Order lemmas for the code-point comparison -/

theorem strLtB_irrefl : ∀ l : List Char, strLtB l l = false
  | [] => rfl
  | c :: cs => by simp [strLtB, lt_irrefl, strLtB_irrefl cs]

theorem strLtB_trans : ∀ {a b c : List Char},
    strLtB a b = true → strLtB b c = true → strLtB a c = true := by
  intro a
  induction a with
  | nil =>
    intro b c h1 h2
    cases b with
    | nil => simp [strLtB] at h1
    | cons y ys =>
      cases c with
      | nil => simp [strLtB] at h2
      | cons z zs => simp [strLtB]
  | cons x xs ih =>
    intro b c h1 h2
    cases b with
    | nil => simp [strLtB] at h1
    | cons y ys =>
      cases c with
      | nil => simp [strLtB] at h2
      | cons z zs =>
        simp only [strLtB] at h1 h2 ⊢
        by_cases hxy : x < y
        · by_cases hyz : y < z
          · simp [lt_trans hxy hyz]
          · by_cases hzy : z < y
            · simp [hyz, hzy] at h2
            · have hyzeq : y = z := le_antisymm (not_lt.mp hzy) (not_lt.mp hyz)
              subst hyzeq
              simp [hxy]
        · by_cases hyx : y < x
          · simp [hxy, hyx] at h1
          · have hxyeq : x = y := le_antisymm (not_lt.mp hyx) (not_lt.mp hxy)
            subst hxyeq
            simp only [lt_irrefl, if_false, if_neg] at h1
            by_cases hxz : x < z
            · simp [hxz]
            · by_cases hzx : z < x
              · simp [hxz, hzx] at h2
              · have hxzeq : x = z := le_antisymm (not_lt.mp hzx) (not_lt.mp hxz)
                subst hxzeq
                simp only [lt_irrefl, if_false, if_neg] at h2 ⊢
                exact ih h1 h2

theorem strLtB_trichot : ∀ a b : List Char, strLtB a b = true ∨ a = b ∨ strLtB b a = true
  | [], [] => Or.inr (Or.inl rfl)
  | [], _ :: _ => Or.inl rfl
  | _ :: _, [] => Or.inr (Or.inr rfl)
  | x :: xs, y :: ys => by
    rcases lt_trichotomy x y with h | h | h
    · left
      simp [strLtB, h]
    · subst h
      rcases strLtB_trichot xs ys with h' | h' | h'
      · left
        simp [strLtB, lt_irrefl, h']
      · right
        left
        rw [h']
      · right
        right
        simp [strLtB, lt_irrefl, h']
    · right
      right
      simp [strLtB, h]

theorem strLtB_asymm {a b : List Char} (h1 : strLtB a b = true) (h2 : strLtB b a = true) : False := by
  have := strLtB_trans h1 h2
  rw [strLtB_irrefl] at this
  exact Bool.false_ne_true this

theorem str_eq_of_data {a b : String} (h : a.data = b.data) : a = b :=
  congrArg String.mk h

/-! ### The tuple and name orders are total preorders -/

instance : IsTrans (String × String) tupleLe := by
  constructor
  intro a b c hab hbc
  rcases hab with h1 | ⟨e1, h1⟩
  · rcases hbc with h2 | ⟨e2, _⟩
    · exact Or.inl (strLtB_trans h1 h2)
    · exact Or.inl (e2 ▸ h1)
  · rcases hbc with h2 | ⟨e2, h2⟩
    · exact Or.inl (e1 ▸ h2)
    · refine Or.inr ⟨e1.trans e2, ?_⟩
      rcases h1 with h1 | h1
      · rcases h2 with h2 | h2
        · exact Or.inl (strLtB_trans h1 h2)
        · exact Or.inl (h2 ▸ h1)
      · exact h1 ▸ h2

instance : IsAntisymm (String × String) tupleLe := by
  constructor
  intro a b hab hba
  rcases hab with h1 | ⟨e1, h1⟩
  · rcases hba with h2 | ⟨e2, _⟩
    · exact (strLtB_asymm h1 h2).elim
    · exact absurd h1 (by rw [e2]; simp [strLt, strLtB_irrefl])
  · rcases hba with h2 | ⟨_, h2⟩
    · exact absurd h2 (by rw [e1]; simp [strLt, strLtB_irrefl])
    · rcases h1 with h1 | h1
      · rcases h2 with h2 | h2
        · exact (strLtB_asymm h1 h2).elim
        · exact absurd h1 (by rw [h2]; simp [strLt, strLtB_irrefl])
      · exact Prod.ext e1 h1

instance : IsTotal (String × String) tupleLe := by
  constructor
  intro a b
  rcases strLtB_trichot a.1.data b.1.data with h | h | h
  · exact Or.inl (Or.inl h)
  · have e : a.1 = b.1 := str_eq_of_data h
    rcases strLtB_trichot a.2.data b.2.data with h' | h' | h'
    · exact Or.inl (Or.inr ⟨e, Or.inl h'⟩)
    · exact Or.inl (Or.inr ⟨e, Or.inr (str_eq_of_data h')⟩)
    · exact Or.inr (Or.inr ⟨e.symm, Or.inl h'⟩)
  · exact Or.inr (Or.inl h)

instance {α : Type} : IsTrans (String × α) nameLe := by
  constructor
  intro a b c hab hbc
  rcases hab with h1 | e1
  · rcases hbc with h2 | e2
    · exact Or.inl (strLtB_trans h1 h2)
    · exact Or.inl (e2 ▸ h1)
  · rcases hbc with h2 | e2
    · exact Or.inl (e1 ▸ h2)
    · exact Or.inr (e1.trans e2)

instance {α : Type} : IsTotal (String × α) nameLe := by
  constructor
  intro a b
  rcases strLtB_trichot a.1.data b.1.data with h | h | h
  · exact Or.inl (Or.inl h)
  · exact Or.inl (Or.inr (str_eq_of_data h))
  · exact Or.inr (Or.inl h)

/-! ### Sorting bridges -/

theorem pySort_perm (l : List (String × String)) : (pySort l).Perm l :=
  List.perm_insertionSort tupleLe l

theorem pySort_sorted (l : List (String × String)) : List.Sorted tupleLe (pySort l) :=
  List.sorted_insertionSort tupleLe l

theorem pySort_eq_of_perm {l1 l2 : List (String × String)} (h : l1.Perm l2) :
    pySort l1 = pySort l2 :=
  List.eq_of_perm_of_sorted ((pySort_perm l1).trans (h.trans (pySort_perm l2).symm))
    (pySort_sorted l1) (pySort_sorted l2)

theorem sortPairs_perm {α : Type} (l : List (String × α)) : (sortPairs l).Perm l :=
  List.perm_insertionSort nameLe l

theorem sortPairs_sorted {α : Type} (l : List (String × α)) :
    List.Sorted nameLe (sortPairs l) :=
  List.sorted_insertionSort nameLe l

theorem sortPairs_idem {α : Type} (l : List (String × α)) :
    sortPairs (sortPairs l) = sortPairs l :=
  (sortPairs_sorted l).insertionSort_eq

theorem sortPairs_map {α β : Type} (g : String × α → String × β)
    (hg : ∀ x, (g x).1 = x.1) (l : List (String × α)) :
    sortPairs (l.map g) = (sortPairs l).map g :=
  (List.map_insertionSort nameLe nameLe g l
    (fun a _ b _ => by simp only [nameLe, hg a, hg b])).symm

/-! ### Shape of `splitWS` -/

theorem splitWS_cons_eq (c : Char) (cs : List Char) :
    splitWS (c :: cs) =
      if isPySpace c then splitWS cs
      else (c :: cs.takeWhile (fun ch => !isPySpace ch))
        :: splitWS (cs.dropWhile (fun ch => !isPySpace ch)) := by
  induction cs generalizing c with
  | nil => by_cases h : isPySpace c = true <;> simp [splitWS, h]
  | cons d ds ih =>
    by_cases hc : isPySpace c = true
    · simp [splitWS, hc]
    · by_cases hd : isPySpace d = true
      · simp [splitWS, hc, hd]
      · have hs := ih d
        rw [if_neg (by simp [hd])] at hs
        simp [splitWS, hc, hd, hs]

theorem splitWS_space_cons {s : Char} (hs : isPySpace s = true) (b : List Char) :
    splitWS (s :: b) = splitWS b := by
  rw [splitWS_cons_eq, if_pos hs]

theorem takeWhile_length_eq_iff {α : Type} {p : α → Bool} {l : List α} :
    (l.takeWhile p).length = l.length ↔ ∀ x ∈ l, p x = true := by
  constructor
  · intro h
    exact List.takeWhile_eq_self_iff.mp ((List.takeWhile_sublist p).eq_of_length h)
  · intro h
    rw [List.takeWhile_eq_self_iff.mpr h]

theorem splitWS_append_aux {s : Char} (hs : isPySpace s = true) :
    ∀ (n : Nat) (a b : List Char), a.length ≤ n →
      splitWS (a ++ s :: b) = splitWS a ++ splitWS b := by
  intro n
  induction n with
  | zero =>
    intro a b ha
    have hnil : a = [] := List.length_eq_zero.mp (Nat.le_zero.mp ha)
    subst hnil
    rw [List.nil_append, splitWS_space_cons hs]
    rfl
  | succ n ih =>
    intro a b ha
    cases a with
    | nil =>
      rw [List.nil_append, splitWS_space_cons hs]
      rfl
    | cons x a1 =>
      rw [List.cons_append, splitWS_cons_eq, splitWS_cons_eq x a1]
      by_cases hx : isPySpace x = true
      · rw [if_pos hx, if_pos hx]
        exact ih a1 b (Nat.le_of_succ_le_succ (by simpa using ha))
      · rw [if_neg hx, if_neg hx]
        by_cases hall : (a1.takeWhile (fun ch => !isPySpace ch)).length = a1.length
        · have hallP : ∀ y ∈ a1, (!isPySpace y) = true := takeWhile_length_eq_iff.mp hall
          have hdropnil : a1.dropWhile (fun ch => !isPySpace ch) = [] :=
            List.dropWhile_eq_nil_iff.mpr hallP
          rw [List.takeWhile_append, if_pos hall, List.dropWhile_append,
            if_pos (by rw [hdropnil]; rfl), hdropnil]
          have h1 : List.takeWhile (fun ch => !isPySpace ch) (s :: b) = [] := by
            rw [List.takeWhile_cons]
            simp [hs]
          have h2 : List.dropWhile (fun ch => !isPySpace ch) (s :: b) = s :: b := by
            rw [List.dropWhile_cons]
            simp [hs]
          rw [h1, h2, splitWS_space_cons hs, List.append_nil,
            List.takeWhile_eq_self_iff.mpr hallP]
          rfl
        · have hne : ¬ (a1.dropWhile (fun ch => !isPySpace ch)).isEmpty = true := by
            intro hcon
            exact hall (takeWhile_length_eq_iff.mpr
              (List.dropWhile_eq_nil_iff.mp (by simpa using hcon)))
          rw [List.takeWhile_append, if_neg hall, List.dropWhile_append, if_neg hne]
          rw [ih (a1.dropWhile (fun ch => !isPySpace ch)) b
            (le_trans ((List.dropWhile_sublist _).length_le)
              (Nat.le_of_succ_le_succ (by simpa using ha)))]
          rfl

theorem splitWS_append {s : Char} (hs : isPySpace s = true) (a b : List Char) :
    splitWS (a ++ s :: b) = splitWS a ++ splitWS b :=
  splitWS_append_aux hs a.length a b (le_refl _)

theorem splitWS_token {l : List Char} (hne : l ≠ []) (hall : ∀ c ∈ l, isPySpace c = false) :
    splitWS l = [l] := by
  cases l with
  | nil => exact absurd rfl hne
  | cons c cs =>
    rw [splitWS_cons_eq, if_neg (by simp [hall c (List.mem_cons_self c cs)])]
    have ht : cs.takeWhile (fun ch => !isPySpace ch) = cs :=
      List.takeWhile_eq_self_iff.mpr
        (fun x hx => by simp [hall x (List.mem_cons_of_mem c hx)])
    have hd : cs.dropWhile (fun ch => !isPySpace ch) = [] :=
      List.dropWhile_eq_nil_iff.mpr
        (fun x hx => by simp [hall x (List.mem_cons_of_mem c hx)])
    rw [ht, hd]
    rfl

theorem splitWS_allspace {l : List Char} (hall : ∀ c ∈ l, isPySpace c = true) :
    splitWS l = [] := by
  induction l with
  | nil => rfl
  | cons c cs ih =>
    rw [splitWS_cons_eq, if_pos (hall c (List.mem_cons_self c cs))]
    exact ih (fun x hx => hall x (List.mem_cons_of_mem c hx))

theorem splitWS_space_strip {sp : List Char} (hall : ∀ c ∈ sp, isPySpace c = true) :
    ∀ x, splitWS (sp ++ x) = splitWS x := by
  induction sp with
  | nil => intro x; rfl
  | cons c sp1 ih =>
    intro x
    rw [List.cons_append, splitWS_cons_eq, if_pos (hall c (List.mem_cons_self c sp1))]
    exact ih (fun y hy => hall y (List.mem_cons_of_mem c hy)) x

theorem splitWS_ne_nil {l : List Char} (h : ∃ c ∈ l, isPySpace c = false) :
    splitWS l ≠ [] := by
  induction l with
  | nil =>
    obtain ⟨c, hc, _⟩ := h
    cases hc
  | cons c cs ih =>
    by_cases hc : isPySpace c = true
    · rw [splitWS_cons_eq, if_pos hc]
      apply ih
      obtain ⟨d, hd, hds⟩ := h
      rcases List.mem_cons.mp hd with rfl | hd1
      · rw [hc] at hds
        cases hds
      · exact ⟨d, hd1, hds⟩
    · rw [splitWS_cons_eq, if_neg hc]
      simp

/-! ### Shape of `splitLines` -/

theorem splitLines_cons (c : Char) (cs : List Char) :
    splitLines (c :: cs) =
      if c = '\n' then ['\n'] :: splitLines cs
      else
        match splitLines cs with
        | [] => [[c]]
        | t :: ts => (c :: t) :: ts := rfl

theorem splitLines_cons_ne_nil (c : Char) (cs : List Char) : splitLines (c :: cs) ≠ [] := by
  by_cases h : c = '\n'
  · simp [splitLines, h]
  · simp only [splitLines, h, if_false]
    cases splitLines cs <;> simp

theorem splitLines_line {l : List Char} (h : '\n' ∉ l) (B : List Char) :
    splitLines (l ++ '\n' :: B) = (l ++ ['\n']) :: splitLines B := by
  induction l with
  | nil => simp [splitLines]
  | cons c l1 ih =>
    have hc : ¬ (c = '\n') := fun hh => h (hh ▸ List.mem_cons_self c l1)
    have h1 : '\n' ∉ l1 := fun hh => h (List.mem_cons_of_mem c hh)
    rw [List.cons_append]
    simp only [splitLines, hc, if_false]
    rw [ih h1]
    simp

theorem splitLines_append :
    ∀ (A : List Char), (A = [] ∨ A.getLast? = some '\n') →
      ∀ B, splitLines (A ++ B) = splitLines A ++ splitLines B := by
  intro A
  induction A with
  | nil =>
    intro _ B
    rfl
  | cons c A1 ih =>
    intro hA B
    rcases hA with h | h
    · cases h
    cases A1 with
    | nil =>
      have hc : c = '\n' := by simpa using h
      subst hc
      simp [splitLines]
    | cons d A2 =>
      have h2 : (d :: A2).getLast? = some '\n' := by
        rwa [List.getLast?_cons_cons] at h
      by_cases hc : c = '\n'
      · subst hc
        rw [List.cons_append, splitLines_cons, if_pos rfl, ih (Or.inr h2) B,
          splitLines_cons '\n' (d :: A2), if_pos rfl, List.cons_append]
      · rw [List.cons_append, splitLines_cons, if_neg hc, ih (Or.inr h2) B,
          splitLines_cons c (d :: A2), if_neg hc]
        cases hsa : splitLines (d :: A2) with
        | nil => exact absurd hsa (splitLines_cons_ne_nil d A2)
        | cons t ts => rfl

theorem splitLines_flat {ls : List (List Char)} (h : ∀ l ∈ ls, '\n' ∉ l) :
    splitLines (ls.flatMap (fun l => l ++ ['\n'])) = ls.map (fun l => l ++ ['\n']) := by
  induction ls with
  | nil => rfl
  | cons l ls1 ih =>
    rw [List.flatMap_cons, List.append_assoc, List.singleton_append,
      splitLines_line (h l (List.mem_cons_self l ls1)),
      ih (fun x hx => h x (List.mem_cons_of_mem l hx)), List.map_cons]

/-! ### Parsing lemmas -/

theorem parseLine_of_two {l : List Char} (h : (splitWS l).length = 2) :
    parseLine l = Except.ok (parsedPair l) := by
  cases hsp : splitWS l with
  | nil =>
    rw [hsp] at h
    simp at h
  | cons a rest =>
    cases rest with
    | nil =>
      rw [hsp] at h
      simp at h
    | cons b rest2 =>
      cases rest2 with
      | nil => simp [parseLine, parsedPair, hsp]
      | cons x xs =>
        rw [hsp] at h
        simp at h

theorem parseLine_of_bad {l : List Char} (h : (splitWS l).length ≠ 2) :
    parseLine l = Except.error ReadError.malformedLine := by
  cases hsp : splitWS l with
  | nil => simp [parseLine, hsp]
  | cons a rest =>
    cases rest with
    | nil => simp [parseLine, hsp]
    | cons b rest2 =>
      cases rest2 with
      | nil =>
        rw [hsp] at h
        simp at h
      | cons x xs => simp [parseLine, hsp]

theorem mapMExcept_ok_of_all {α β ε : Type} {f : α → Except ε β} {g : α → β}
    {l : List α} (h : ∀ x ∈ l, f x = Except.ok (g x)) :
    mapMExcept f l = Except.ok (l.map g) := by
  induction l with
  | nil => rfl
  | cons a as ih =>
    simp [mapMExcept, h a (List.mem_cons_self a as),
      ih (fun x hx => h x (List.mem_cons_of_mem a hx))]

theorem mapMExcept_bad {l : List (List Char)} (h : ∃ x ∈ l, (splitWS x).length ≠ 2) :
    mapMExcept parseLine l = Except.error ReadError.malformedLine := by
  induction l with
  | nil =>
    obtain ⟨x, hx, _⟩ := h
    cases hx
  | cons a as ih =>
    by_cases ha : (splitWS a).length = 2
    · have htail : ∃ x ∈ as, (splitWS x).length ≠ 2 := by
        obtain ⟨x, hx, hxx⟩ := h
        rcases List.mem_cons.mp hx with rfl | hx1
        · exact absurd ha hxx
        · exact ⟨x, hx1, hxx⟩
      simp [mapMExcept, parseLine_of_two ha, ih htail]
    · simp [mapMExcept, parseLine_of_bad ha]

theorem mapMExcept_ok_shape {l : List (List Char)} {res : List (String × String)}
    (h : mapMExcept parseLine l = Except.ok res) : res = l.map parsedPair := by
  induction l generalizing res with
  | nil =>
    simp only [mapMExcept] at h
    injection h with h
    rw [← h]
    rfl
  | cons a as ih =>
    by_cases ha : (splitWS a).length = 2
    · simp only [mapMExcept, parseLine_of_two ha] at h
      cases hm : mapMExcept parseLine as with
      | error e =>
        rw [hm] at h
        simp at h
      | ok bs =>
        rw [hm] at h
        simp only [] at h
        injection h with h
        rw [← h, List.map_cons, ih hm]
    · rw [mapMExcept] at h
      rw [parseLine_of_bad ha] at h
      simp at h

/-! ### Shape of the serialized file -/

theorem foldl_append_data :
    ∀ (ls : List String) (init : String),
      (ls.foldl (fun acc line => acc ++ line ++ "\n") init).data
        = init.data ++ ls.flatMap (fun l => l.data ++ ['\n']) := by
  intro ls
  induction ls with
  | nil =>
    intro init
    simp
  | cons l ls1 ih =>
    intro init
    rw [List.foldl_cons, ih, List.flatMap_cons]
    simp [String.data_append, List.append_assoc]

theorem write_file_data (h : HashList) :
    (HashList.write_file h).data
      = ("# Sommes md5 de " ++ pyFormatOpt h.dirpath ++ "\n").data
        ++ h.lines.flatMap (fun l => l.data ++ ['\n']) :=
  foldl_append_data h.lines _

theorem lines_eq (h : HashList) :
    h.lines = h.hashlist.map (fun p =>
      p.1 ++ spacesStr (longestLen h.hashlist - p.1.length + 5) ++ p.2) := by
  rw [HashList.lines, HashList.justify, List.map_map]
  rfl

/-! ### The serialized file, line by line -/

theorem write_contentLines (h : HashList)
    (hdir : '\n' ∉ (pyFormatOpt h.dirpath).data)
    (hlines : ∀ l ∈ h.lines, '\n' ∉ l.data) :
    contentLines (HashList.write_file h)
      = (h.lines.map (fun l => l.data ++ ['\n'])).filter (fun l => !(['#'].isPrefixOf l)) := by
  have hdrdata : ("# Sommes md5 de " ++ pyFormatOpt h.dirpath ++ "\n").data
      = ("# Sommes md5 de ".data ++ (pyFormatOpt h.dirpath).data) ++ '\n' :: [] := by
    rw [String.data_append, String.data_append]
  have hnl : '\n' ∉ "# Sommes md5 de ".data ++ (pyFormatOpt h.dirpath).data := by
    intro hmem
    rcases List.mem_append.mp hmem with hm | hm
    · revert hm
      decide
    · exact hdir hm
  have hflat : h.lines.flatMap (fun l => l.data ++ ['\n'])
      = (h.lines.map String.data).flatMap (fun l => l ++ ['\n']) := by
    rw [List.flatMap_map]
  rw [contentLines, write_file_data, hdrdata, List.append_assoc, hflat,
    List.singleton_append, splitLines_line hnl, splitLines_flat (by
      intro l hl
      obtain ⟨l0, hl0, rfl⟩ := List.mem_map.mp hl
      exact hlines l0 hl0)]
  rw [List.filter_cons_of_neg (by simp [List.isPrefixOf]), List.map_map]
  rfl

theorem splitWS_line {p d : String} {n : Nat}
    (hp : p.data ≠ []) (hpa : ∀ c ∈ p.data, isPySpace c = false)
    (hd : d.data ≠ []) (hda : ∀ c ∈ d.data, isPySpace c = false) :
    splitWS ((p ++ spacesStr (n + 1) ++ d).data ++ ['\n']) = [p.data, d.data] := by
  have hdata : (p ++ spacesStr (n + 1) ++ d).data ++ ['\n']
      = p.data ++ (' ' :: (List.replicate n ' ' ++ (d.data ++ ['\n']))) := by
    rw [String.data_append, String.data_append]
    show (p.data ++ List.replicate (n + 1) ' ' ++ d.data) ++ ['\n'] = _
    rw [List.replicate_succ]
    simp [List.append_assoc]
  rw [hdata, splitWS_append (by decide) p.data _, splitWS_token hp hpa,
    splitWS_space_strip (fun c hc => by rw [List.eq_of_mem_replicate hc]; rfl),
    show d.data ++ ['\n'] = d.data ++ '\n' :: [] from rfl,
    splitWS_append (by decide) d.data [], splitWS_token hd hda]
  rfl

theorem parseLine_entry {p d : String} {n : Nat}
    (hp : p.data ≠ []) (hpa : ∀ c ∈ p.data, isPySpace c = false)
    (hd : d.data ≠ []) (hda : ∀ c ∈ d.data, isPySpace c = false) :
    parseLine ((p ++ spacesStr (n + 1) ++ d).data ++ ['\n']) = Except.ok (p, d) := by
  rw [parseLine, splitWS_line hp hpa hd hda]

theorem mapMExcept_map_id {α γ ε : Type} {f : γ → Except ε α} {k : α → γ} {l : List α}
    (h : ∀ x ∈ l, f (k x) = Except.ok x) : mapMExcept f (l.map k) = Except.ok l := by
  induction l with
  | nil => rfl
  | cons a as ih =>
    simp [mapMExcept, h a (List.mem_cons_self a as),
      ih (fun x hx => h x (List.mem_cons_of_mem a hx))]

/-! ### Claim theorems: equality and mutation -/

/-- **C1**: `HashList.equals` is true for any two lists holding the same
multiset of `(relativePath, digest)` pairs, regardless of insertion
order; indeed it is true exactly when the two entry sequences, each
sorted by `(relativePath, digest)`, are identical element by element
(which also forces equal lengths). -/
theorem claim1_equals_multiset (h1 h2 : HashList) :
    (HashList.equals h1 h2 = true ↔ h1.hashlist.Perm h2.hashlist) ∧
    (HashList.equals h1 h2 = true ↔ pySort h1.hashlist = pySort h2.hashlist) := by
  have hsorted : HashList.equals h1 h2 = true ↔ pySort h1.hashlist = pySort h2.hashlist := by
    simp [HashList.equals, HashList.eqMut]
  refine ⟨?_, hsorted⟩
  rw [hsorted]
  constructor
  · intro he
    exact (pySort_perm h1.hashlist).symm.trans (he ▸ pySort_perm h2.hashlist)
  · exact pySort_eq_of_perm

/-- **C9**: `__eq__` sorts both operands in place: after `eqMut` (also
the one performed inside `compare`), both lists hold their entries in
`(relativePath, digest)`-sorted order, so their subsequent `lines()`,
`write_file` output, and the diff text built inside `compare` all
reflect sorted order rather than insertion order. -/
theorem claim9_eq_mutates (h1 h2 : HashList) :
    (HashList.eqMut h1 h2).1 = { h1 with hashlist := pySort h1.hashlist } ∧
    (HashList.eqMut h1 h2).2.1 = { h2 with hashlist := pySort h2.hashlist } ∧
    List.Sorted tupleLe (HashList.eqMut h1 h2).1.hashlist ∧
    List.Sorted tupleLe (HashList.eqMut h1 h2).2.1.hashlist ∧
    (HashList.compare h1 h2).1 = { h1 with hashlist := pySort h1.hashlist } ∧
    (HashList.compare h1 h2).2.1 = { h2 with hashlist := pySort h2.hashlist } ∧
    (HashList.eqMut h1 h2).1.lines
      = HashList.lines { h1 with hashlist := pySort h1.hashlist } ∧
    HashList.write_file (HashList.eqMut h1 h2).1
      = HashList.write_file { h1 with hashlist := pySort h1.hashlist } ∧
    (HashList.compare h1 h2).2.2
      = (if HashList.equals h1 h2 then "Les sommes md5 sont identiques.\n"
         else "Les sommes md5 sont différentes!\n\n"
           ++ HashList.diff { h1 with hashlist := pySort h1.hashlist }
                { h2 with hashlist := pySort h2.hashlist }) := by
  refine ⟨rfl, rfl, pySort_sorted h1.hashlist, pySort_sorted h2.hashlist, ?_, ?_, rfl, rfl, ?_⟩
  · rw [HashList.compare]
    by_cases hb : (HashList.eqMut h1 h2).2.2 = true
    · rw [if_pos hb]
      rfl
    · rw [if_neg hb]
      rfl
  · rw [HashList.compare]
    by_cases hb : (HashList.eqMut h1 h2).2.2 = true
    · rw [if_pos hb]
      rfl
    · rw [if_neg hb]
      rfl
  · rw [HashList.compare, HashList.equals]
    by_cases hb : (HashList.eqMut h1 h2).2.2 = true
    · rw [if_pos hb, if_pos hb]
    · rw [if_neg hb, if_neg hb]
      rfl

/-! ### Claim theorems: read_file error handling and frame -/

/-- **C3**: `read_file` fails with `NotFoundError` when the path is not
a regular file; fails with `EmptyInputError` when, after discarding the
lines beginning with `#`, no content line remains (in particular for
an empty or all-comment file); fails with `MalformedLineError` when
some remaining line does not split on whitespace into exactly two
tokens; and otherwise succeeds, storing exactly the parsed
`(path, digest)` pairs. -/
theorem claim3_read_file_errors (h : HashList) (content : String) :
    HashList.read_file h false content = Except.error ReadError.notFound ∧
    (contentLines content = [] →
      HashList.read_file h true content = Except.error ReadError.emptyInput) ∧
    ((∃ l ∈ contentLines content, (splitWS l).length ≠ 2) →
      HashList.read_file h true content = Except.error ReadError.malformedLine) ∧
    (contentLines content ≠ [] → (∀ l ∈ contentLines content, (splitWS l).length = 2) →
      HashList.read_file h true content
        = Except.ok { h with hashlist := (contentLines content).map parsedPair }) := by
  refine ⟨rfl, ?_, ?_, ?_⟩
  · intro hnil
    simp [HashList.read_file, HashList.parseContent, hnil, Except.map]
  · intro hex
    have hne : contentLines content ≠ [] := by
      obtain ⟨l, hl, _⟩ := hex
      intro hcon
      rw [hcon] at hl
      cases hl
    simp [HashList.read_file, HashList.parseContent, List.isEmpty_iff, hne,
      mapMExcept_bad hex, Except.map]
  · intro hne hall
    simp [HashList.read_file, HashList.parseContent, List.isEmpty_iff, hne,
      mapMExcept_ok_of_all (fun l hl => parseLine_of_two (hall l hl)), Except.map]

/-- Witness for C3: each error mode and the success mode at a concrete
file. -/
theorem claim3_read_file_errors_witness :
    HashList.read_file ⟨[], none⟩ false "a b\n" = Except.error ReadError.notFound ∧
    HashList.read_file ⟨[], none⟩ true "# x\n" = Except.error ReadError.emptyInput ∧
    HashList.read_file ⟨[], none⟩ true "a b c\n" = Except.error ReadError.malformedLine ∧
    HashList.read_file ⟨[], none⟩ true "a b\n"
      = Except.ok { hashlist := [("a", "b")], dirpath := none } := by
  refine ⟨(claim3_read_file_errors ⟨[], none⟩ "a b\n").1,
    (claim3_read_file_errors ⟨[], none⟩ "# x\n").2.1 (by decide),
    (claim3_read_file_errors ⟨[], none⟩ "a b c\n").2.2.1
      ⟨['a', ' ', 'b', ' ', 'c', '\n'], by decide, by decide⟩,
    ((claim3_read_file_errors ⟨[], none⟩ "a b\n").2.2.2 (by decide) (by decide)).trans
      (by decide)⟩

/-- **C8 counterexample**: the claim says the origin label is `None`
after a successful `read_file` load; on the code, a list whose label
was `"old"` still carries `"old"` after loading `"a b\n"`. -/
theorem claim8_label_counterexample :
    HashList.read_file ⟨[("x", "y")], some "old"⟩ true "a b\n"
      = Except.ok ⟨[("a", "b")], some "old"⟩
    ∧ some "old" ≠ (none : Option String) := ⟨by decide, by decide⟩

/-- **C8 amended**: after every successful `read_file`, the in-memory
entry sequence is exactly the parsed entries of the file (all prior
entries are discarded), but the origin label is *retained* from before
the load — `read_file` never touches `dirpath`, so it is `None` after
a load only if it was `None` before (e.g. on a fresh list). -/
theorem claim8_read_replaces_entries (h : HashList) (isRegularFile : Bool) (content : String)
    (g : HashList) (hok : HashList.read_file h isRegularFile content = Except.ok g) :
    g.hashlist = (contentLines content).map parsedPair ∧ g.dirpath = h.dirpath := by
  cases isRegularFile with
  | false => simp [HashList.read_file] at hok
  | true =>
    rw [HashList.read_file] at hok
    simp only [Bool.not_true, Bool.false_eq_true, if_false] at hok
    cases hp : HashList.parseContent content with
    | error e =>
      rw [hp] at hok
      simp [Except.map] at hok
    | ok entries =>
      rw [hp] at hok
      simp only [Except.map] at hok
      injection hok with hok
      rw [HashList.parseContent] at hp
      by_cases hemp : (contentLines content).isEmpty
      · rw [if_pos hemp] at hp
        cases hp
      · rw [if_neg hemp] at hp
        rw [← hok]
        exact ⟨mapMExcept_ok_shape hp, rfl⟩

/-- Witness for the amended C8 at a concrete load. -/
theorem claim8_read_replaces_entries_witness :
    (⟨[("a", "b")], some "old"⟩ : HashList).hashlist
        = (contentLines "a b\n").map parsedPair ∧
    (⟨[("a", "b")], some "old"⟩ : HashList).dirpath
        = (⟨[("x", "y")], some "old"⟩ : HashList).dirpath :=
  claim8_read_replaces_entries ⟨[("x", "y")], some "old"⟩ true "a b\n"
    ⟨[("a", "b")], some "old"⟩ (by decide)

/-! ### Claim theorems: write/read round trip -/

theorem spacesStr_data (n : Nat) : (spacesStr n).data = List.replicate n ' ' := rfl

/-- **C2 counterexample**: the claim quantifies over every `HashList`;
for the empty list, `write_file` emits only the comment line, so
reading it back fails with `EmptyInputError` instead of recovering an
`equals`-equal entry multiset. -/
theorem claim2_roundtrip_counterexample :
    HashList.read_file ⟨[], none⟩ true (HashList.write_file ⟨[], some "d"⟩)
      = Except.error ReadError.emptyInput := by decide

/-- **C2 amended**: for every `HashList` with at least one entry, whose
entries' paths and digests are nonempty and free of whitespace, whose
paths do not begin with `#`, and whose origin label contains no
newline, writing with `write_file` and loading the result with
`read_file` into a fresh `HashList` succeeds and recovers exactly the
original entry sequence — in particular an entry multiset equal by
`equals`; the origin label is not recovered (`None` on the fresh
list). -/
theorem claim2_roundtrip (h : HashList)
    (hne : h.hashlist ≠ [])
    (hpaths : ∀ e ∈ h.hashlist, e.1.data ≠ [] ∧ (∀ c ∈ e.1.data, isPySpace c = false) ∧
      e.1.data.head? ≠ some '#')
    (hdigests : ∀ e ∈ h.hashlist, e.2.data ≠ [] ∧ ∀ c ∈ e.2.data, isPySpace c = false)
    (hdir : '\n' ∉ (pyFormatOpt h.dirpath).data) :
    ∃ g : HashList,
      HashList.read_file ⟨[], none⟩ true (HashList.write_file h) = Except.ok g ∧
      HashList.equals g h = true ∧ g.hashlist = h.hashlist ∧ g.dirpath = none := by
  have hnoNL : ∀ l ∈ h.lines, '\n' ∉ l.data := by
    intro l hl
    rw [lines_eq] at hl
    obtain ⟨p, hp, rfl⟩ := List.mem_map.mp hl
    intro hmem
    rw [String.data_append, String.data_append] at hmem
    rcases List.mem_append.mp hmem with hm | hm
    · rcases List.mem_append.mp hm with hm1 | hm1
      · have := (hpaths p hp).2.1 '\n' hm1
        simp [isPySpace] at this
      · rw [spacesStr_data] at hm1
        have := List.eq_of_mem_replicate hm1
        cases this
    · have := (hdigests p hp).2 '\n' hm
      simp [isPySpace] at this
  have hcl : contentLines (HashList.write_file h)
      = h.hashlist.map (fun p =>
          (p.1 ++ spacesStr (longestLen h.hashlist - p.1.length + 5) ++ p.2).data ++ ['\n']) := by
    have hkeep : ∀ chunk ∈ h.lines.map (fun l => l.data ++ ['\n']),
        (!(['#'].isPrefixOf chunk)) = true := by
      intro chunk hchunk
      obtain ⟨l, hl, rfl⟩ := List.mem_map.mp hchunk
      rw [lines_eq] at hl
      obtain ⟨p, hp, rfl⟩ := List.mem_map.mp hl
      obtain ⟨hpne, _, hphash⟩ := hpaths p hp
      rw [String.data_append, String.data_append]
      cases hpd : p.1.data with
      | nil => exact absurd hpd hpne
      | cons c cs =>
        have hc : ¬ (c = '#') := by
          intro hcon
          rw [hpd, hcon] at hphash
          exact hphash rfl
        simp [List.isPrefixOf, hc]
        exact fun hcon => hc hcon.symm
    rw [write_contentLines h hdir hnoNL, List.filter_eq_self.mpr hkeep, lines_eq, List.map_map]
    rfl
  have hmapM : mapMExcept parseLine (contentLines (HashList.write_file h))
      = Except.ok h.hashlist := by
    rw [hcl]
    apply mapMExcept_map_id
    intro e he
    obtain ⟨hpne, hpall, _⟩ := hpaths e he
    obtain ⟨hdne, hdall⟩ := hdigests e he
    have h5 : longestLen h.hashlist - e.1.length + 5
        = (longestLen h.hashlist - e.1.length + 4) + 1 := rfl
    rw [h5, parseLine_entry hpne hpall hdne hdall]
  refine ⟨⟨h.hashlist, none⟩, ?_, ?_, rfl, rfl⟩
  · have hlsne : contentLines (HashList.write_file h) ≠ [] := by
      rw [hcl]
      intro hcon
      exact hne (List.map_eq_nil_iff.mp hcon)
    rw [HashList.read_file]
    simp only [Bool.not_true, Bool.false_eq_true, if_false]
    rw [HashList.parseContent]
    rw [if_neg (by simp [List.isEmpty_iff, hlsne]), hmapM]
    rfl
  · simp [HashList.equals, HashList.eqMut]

/-- Witness for the amended C2 at a concrete one-entry list. -/
theorem claim2_roundtrip_witness :
    ∃ g : HashList,
      HashList.read_file ⟨[], none⟩ true (HashList.write_file ⟨[("a", "b")], some "d"⟩)
        = Except.ok g ∧
      HashList.equals g ⟨[("a", "b")], some "d"⟩ = true ∧
      g.hashlist = [("a", "b")] ∧ g.dirpath = none :=
  claim2_roundtrip ⟨[("a", "b")], some "d"⟩ (by decide) (by decide) (by decide) (by decide)

/-! ### Claim theorems: whitespace in paths -/

theorem ends_nl_append {A B : List Char}
    (hA : A = [] ∨ A.getLast? = some '\n') (hB : B = [] ∨ B.getLast? = some '\n') :
    A ++ B = [] ∨ (A ++ B).getLast? = some '\n' := by
  rcases hB with rfl | hB
  · simpa using hA
  · right
    rw [List.getLast?_append_of_ne_nil]
    · exact hB
    · intro hcon
      rw [hcon] at hB
      cases hB

theorem chunks_end_nl (ls : List String) :
    ls.flatMap (fun l => l.data ++ ['\n']) = []
      ∨ (ls.flatMap (fun l => l.data ++ ['\n'])).getLast? = some '\n' := by
  induction ls with
  | nil => exact Or.inl rfl
  | cons l ls1 ih =>
    rw [List.flatMap_cons]
    exact ends_nl_append (Or.inr (List.getLast?_concat _)) ih

theorem header_data (h : HashList) :
    ("# Sommes md5 de " ++ pyFormatOpt h.dirpath ++ "\n").data
      = ("# Sommes md5 de ".data ++ (pyFormatOpt h.dirpath).data) ++ ['\n'] := by
  rw [String.data_append, String.data_append]

theorem line_no_newline {p d : String} {n : Nat}
    (hpa : '\n' ∉ p.data) (hda : '\n' ∉ d.data) :
    '\n' ∉ (p ++ spacesStr n ++ d).data := by
  intro hmem
  rw [String.data_append, String.data_append] at hmem
  rcases List.mem_append.mp hmem with hm | hm
  · rcases List.mem_append.mp hm with hm1 | hm1
    · exact hpa hm1
    · rw [spacesStr_data] at hm1
      cases List.eq_of_mem_replicate hm1
  · exact hda hm

theorem splitWS_line_three {p d : String} {n : Nat}
    (hw : ∃ u w v, p.data = u ++ w :: v ∧ isPySpace w = true ∧
      (∃ x ∈ u, isPySpace x = false) ∧ (∃ y ∈ v, isPySpace y = false))
    (hdw : ∃ y ∈ d.data, isPySpace y = false) :
    (splitWS ((p ++ spacesStr (n + 1) ++ d).data ++ ['\n'])).length ≠ 2 := by
  obtain ⟨u, w, v, hpd, hwsp, hu, hv⟩ := hw
  have hdata : (p ++ spacesStr (n + 1) ++ d).data ++ ['\n']
      = u ++ w :: (v ++ (' ' :: (List.replicate n ' ' ++ (d.data ++ ['\n'])))) := by
    rw [String.data_append, String.data_append, hpd, spacesStr_data, List.replicate_succ]
    simp [List.append_assoc]
  rw [hdata, splitWS_append hwsp u _, splitWS_append (by decide) v _,
    splitWS_space_strip (fun c hc => by rw [List.eq_of_mem_replicate hc]; rfl),
    show d.data ++ ['\n'] = d.data ++ '\n' :: [] from rfl,
    splitWS_append (by decide) d.data []]
  have l1 : 1 ≤ (splitWS u).length := List.length_pos.mpr (splitWS_ne_nil hu)
  have l2 : 1 ≤ (splitWS v).length := List.length_pos.mpr (splitWS_ne_nil hv)
  have l3 : 1 ≤ (splitWS d.data).length := List.length_pos.mpr (splitWS_ne_nil hdw)
  simp only [List.length_append]
  omega

/-- **C10 counterexample**: the claim, for every list with an entry
whose path contains whitespace, predicts a failed two-token check; with
the path `"a "` (trailing space), the written line parses fine — the
trailing space merges into the padding, the read succeeds, and the
recovered entry is `("a", "d")`. -/
theorem claim10_whitespace_counterexample :
    (∃ c ∈ ("a " : String).data, isPySpace c = true) ∧
    HashList.read_file ⟨[], none⟩ true (HashList.write_file ⟨[("a ", "d")], none⟩)
      = Except.ok ⟨[("a", "d")], none⟩ :=
  ⟨⟨' ', by decide, by decide⟩, by decide⟩

/-- **C10 amended**: for every `HashList` with an entry whose path
contains an *interior* whitespace character (non-whitespace characters
on both sides), does not start with `#` and contains no newline, and
whose digest contains no newline and at least one non-whitespace
character, the written line for that entry splits into three or more
whitespace-separated tokens, so loading the file written by
`write_file` fails the exactly-two-tokens check with
`MalformedLineError`: such a list cannot be persisted and restored
through the text format. -/
theorem claim10_interior_whitespace (h h0 : HashList) (p d : String)
    (hmem : (p, d) ∈ h.hashlist)
    (hw : ∃ u w v, p.data = u ++ w :: v ∧ isPySpace w = true ∧
      (∃ x ∈ u, isPySpace x = false) ∧ (∃ y ∈ v, isPySpace y = false))
    (hhash : p.data.head? ≠ some '#')
    (hpn : '\n' ∉ p.data) (hdn : '\n' ∉ d.data)
    (hdw : ∃ y ∈ d.data, isPySpace y = false) :
    HashList.read_file h0 true (HashList.write_file h)
      = Except.error ReadError.malformedLine := by
  obtain ⟨pre, post, hsplit⟩ := List.append_of_mem hmem
  obtain ⟨u, w, v, hpd, hwsp, hu, hv⟩ := hw
  have hlineD : '\n' ∉ (p ++ spacesStr (longestLen h.hashlist - p.length + 5) ++ d).data :=
    line_no_newline hpn hdn
  have hmap : h.hashlist.map
        (fun q => q.1 ++ spacesStr (longestLen h.hashlist - q.1.length + 5) ++ q.2)
      = pre.map (fun q => q.1 ++ spacesStr (longestLen h.hashlist - q.1.length + 5) ++ q.2)
        ++ (p ++ spacesStr (longestLen h.hashlist - p.length + 5) ++ d)
        :: post.map (fun q => q.1 ++ spacesStr (longestLen h.hashlist - q.1.length + 5) ++ q.2) := by
    rw [hsplit, List.map_append, List.map_cons]
  have hcontent : (HashList.write_file h).data
      = ((("# Sommes md5 de ".data ++ (pyFormatOpt h.dirpath).data) ++ ['\n'])
          ++ (pre.map (fun q =>
              q.1 ++ spacesStr (longestLen h.hashlist - q.1.length + 5) ++ q.2)).flatMap
            (fun l => l.data ++ ['\n']))
        ++ ((p ++ spacesStr (longestLen h.hashlist - p.length + 5) ++ d).data
          ++ '\n' :: (post.map (fun q =>
              q.1 ++ spacesStr (longestLen h.hashlist - q.1.length + 5) ++ q.2)).flatMap
            (fun l => l.data ++ ['\n'])) := by
    rw [write_file_data, header_data, lines_eq, hmap, List.flatMap_append, List.flatMap_cons]
    simp [List.append_assoc]
  have hA : (("# Sommes md5 de ".data ++ (pyFormatOpt h.dirpath).data) ++ ['\n'])
        ++ (pre.map (fun q =>
            q.1 ++ spacesStr (longestLen h.hashlist - q.1.length + 5) ++ q.2)).flatMap
          (fun l => l.data ++ ['\n']) = []
      ∨ ((("# Sommes md5 de ".data ++ (pyFormatOpt h.dirpath).data) ++ ['\n'])
        ++ (pre.map (fun q =>
            q.1 ++ spacesStr (longestLen h.hashlist - q.1.length + 5) ++ q.2)).flatMap
          (fun l => l.data ++ ['\n'])).getLast? = some '\n' :=
    ends_nl_append (Or.inr (List.getLast?_concat _)) (chunks_end_nl _)
  have hsl : splitLines (HashList.write_file h).data
      = splitLines ((("# Sommes md5 de ".data ++ (pyFormatOpt h.dirpath).data) ++ ['\n'])
          ++ (pre.map (fun q =>
              q.1 ++ spacesStr (longestLen h.hashlist - q.1.length + 5) ++ q.2)).flatMap
            (fun l => l.data ++ ['\n']))
        ++ (((p ++ spacesStr (longestLen h.hashlist - p.length + 5) ++ d).data ++ ['\n'])
          :: splitLines ((post.map (fun q =>
              q.1 ++ spacesStr (longestLen h.hashlist - q.1.length + 5) ++ q.2)).flatMap
            (fun l => l.data ++ ['\n']))) := by
    rw [hcontent, splitLines_append _ hA, splitLines_line hlineD]
  have hmemCL : (p ++ spacesStr (longestLen h.hashlist - p.length + 5) ++ d).data ++ ['\n']
      ∈ contentLines (HashList.write_file h) := by
    rw [contentLines, hsl]
    refine List.mem_filter.mpr ⟨List.mem_append_right _ (List.mem_cons_self _ _), ?_⟩
    cases hucase : u with
    | nil =>
      obtain ⟨x, hx, _⟩ := hu
      rw [hucase] at hx
      cases hx
    | cons c u2 =>
      have hpdc : p.data = c :: (u2 ++ w :: v) := by
        rw [hpd, hucase, List.cons_append]
      have hc : ¬ (c = '#') := by
        intro hcon
        rw [hpdc, hcon] at hhash
        exact hhash rfl
      rw [String.data_append, String.data_append, hpdc]
      simp [List.isPrefixOf, hc]
      exact fun hcon => hc hcon.symm
  have hlen : (splitWS
      ((p ++ spacesStr (longestLen h.hashlist - p.length + 5) ++ d).data ++ ['\n'])).length
      ≠ 2 :=
    splitWS_line_three ⟨u, w, v, hpd, hwsp, hu, hv⟩ hdw
  have hclne : contentLines (HashList.write_file h) ≠ [] := by
    intro hcon
    rw [hcon] at hmemCL
    cases hmemCL
  rw [HashList.read_file]
  simp only [Bool.not_true, Bool.false_eq_true, if_false]
  rw [HashList.parseContent, if_neg (by simp [List.isEmpty_iff, hclne]),
    mapMExcept_bad ⟨_, hmemCL, hlen⟩]
  rfl

/-- Witness for the amended C10: an interior space in the path `"a b"`
makes the written file unreadable. -/
theorem claim10_interior_whitespace_witness :
    HashList.read_file ⟨[], none⟩ true (HashList.write_file ⟨[("a b", "xyz")], none⟩)
      = Except.error ReadError.malformedLine :=
  claim10_interior_whitespace ⟨[("a b", "xyz")], none⟩ ⟨[], none⟩ "a b" "xyz"
    (by decide)
    ⟨['a'], ' ', ['b'], rfl, rfl, ⟨'a', by decide, by decide⟩, ⟨'b', by decide, by decide⟩⟩
    (by decide) (by decide) (by decide) ⟨'x', by decide, by decide⟩

/-! ### Forest and traversal lemmas -/

theorem toList_forestOf : ∀ l : List (String × FsTree), (forestOf l).toList = l
  | [] => rfl
  | (n, t) :: rest => by
    simp [forestOf, FsForest.toList, toList_forestOf rest]

theorem walkForest_eq (ih : Bool) : ∀ s : FsForest,
    Directory.walkForest ih s
      = s.toList.map (fun d => (d.1, Directory.walkTree ih d.2))
  | FsForest.nil => rfl
  | FsForest.cons n t rest => by
    simp [Directory.walkForest, FsForest.toList, walkForest_eq ih rest]

theorem canonForest_eq : ∀ s : FsForest,
    canonForest s = s.toList.map (fun d => (d.1, canonTree d.2))
  | FsForest.nil => rfl
  | FsForest.cons n t rest => by
    simp [canonForest, FsForest.toList, canonForest_eq rest]

theorem treeSize_pos (t : FsTree) : 0 < treeSize t := by
  cases t with
  | node files subdirs =>
    simp [treeSize]

theorem mem_toList_treeSize {nm : String} {sub : FsTree} :
    ∀ (s : FsForest), (nm, sub) ∈ s.toList → treeSize sub < 1 + forestSize s
  | FsForest.nil, hmem => by cases hmem
  | FsForest.cons n t rest, hmem => by
    simp only [FsForest.toList] at hmem
    rcases List.mem_cons.mp hmem with heq | hmem2
    · injection heq with h1 h2
      subst h2
      simp only [forestSize]
      omega
    · have := mem_toList_treeSize rest hmem2
      simp only [forestSize]
      omega

theorem mem_treeSize {nm : String} {sub : FsTree} {files : List (String × List Nat)}
    {subdirs : FsForest} (hmem : (nm, sub) ∈ subdirs.toList) :
    treeSize sub < treeSize (FsTree.node files subdirs) := by
  have := mem_toList_treeSize subdirs hmem
  simp only [treeSize]
  omega

theorem walk_entry_ne_nil {ih : Bool} {t : FsTree} :
    ∀ e ∈ Directory.walkTree ih t, e.1 ≠ [] := by
  intro e he
  cases t with
  | node files subdirs =>
    simp only [Directory.walkTree] at he
    rcases List.mem_append.mp he with hm | hm
    · obtain ⟨f, _, rfl⟩ := List.mem_map.mp hm
      simp
    · obtain ⟨dpair, _, hmm⟩ := List.mem_flatMap.mp hm
      obtain ⟨e0, _, rfl⟩ := List.mem_map.mp hmm
      simp

theorem getLastD_cons_ne_nil {α : Type} {a x : α} {l : List α} (h : l ≠ []) :
    (a :: l).getLastD x = l.getLastD x := by
  cases l with
  | nil => exact absurd rfl h
  | cons b l2 => simp [List.getLastD_cons]

theorem walk_false_filter : ∀ (N : Nat) (t : FsTree), treeSize t ≤ N →
    Directory.walkTree false t
      = (Directory.walkTree true t).filter
          (fun e => !pyStartswith (e.1.getLastD "") ".") := by
  intro N
  induction N with
  | zero =>
    intro t ht
    exact absurd ht (by have := treeSize_pos t; omega)
  | succ N ihN =>
    intro t ht
    cases t with
    | node files subdirs =>
      simp only [Directory.walkTree]
      rw [List.filter_append]
      have hfiles :
          ((sortPairs files).filter (fun f => false || !pyStartswith f.1 ".")).map
              (fun f => ([f.1], f.2))
            = (((sortPairs files).filter (fun f => true || !pyStartswith f.1 ".")).map
                (fun f => ([f.1], f.2))).filter
                (fun e => !pyStartswith (e.1.getLastD "") ".") := by
        simp only [Bool.false_or, Bool.true_or, List.filter_true]
        rw [List.filter_map]
        apply congrArg
        apply List.filter_congr
        intro f _
        simp [Function.comp, List.getLastD_cons]
      have hsubs :
          (sortPairs (Directory.walkForest false subdirs)).flatMap
              (fun d => d.2.map (fun e => (d.1 :: e.1, e.2)))
            = ((sortPairs (Directory.walkForest true subdirs)).flatMap
                (fun d => d.2.map (fun e => (d.1 :: e.1, e.2)))).filter
                (fun e => !pyStartswith (e.1.getLastD "") ".") := by
        rw [walkForest_eq, walkForest_eq,
          sortPairs_map (fun d => (d.1, Directory.walkTree false d.2)) (fun _ => rfl),
          sortPairs_map (fun d => (d.1, Directory.walkTree true d.2)) (fun _ => rfl),
          List.flatMap_map, List.flatMap_map, List.filter_flatMap]
        apply List.flatMap_congr
        intro d hd
        have hsize : treeSize d.2 ≤ N := by
          have hmem : (d.1, d.2) ∈ subdirs.toList := by
            have := (List.mem_insertionSort nameLe).mp hd
            simpa using this
          have := mem_toList_treeSize subdirs hmem
          simp only [treeSize] at ht
          omega
        show (Directory.walkTree false d.2).map (fun e => (d.1 :: e.1, e.2))
            = ((Directory.walkTree true d.2).map (fun e => (d.1 :: e.1, e.2))).filter
                (fun e => !pyStartswith (e.1.getLastD "") ".")
        rw [ihN d.2 hsize, List.filter_map]
        apply congrArg
        apply List.filter_congr
        intro e he
        have hne : e.1 ≠ [] := walk_entry_ne_nil e he
        cases he1 : e.1 with
        | nil => exact absurd he1 hne
        | cons b l2 => simp [Function.comp, he1, List.getLast?_cons_cons]
      rw [hfiles, hsubs]

theorem fileIn_mem_walk_true {comps : List String} {bs : List Nat} {t : FsTree}
    (hf : FileIn comps bs t) : (comps, bs) ∈ Directory.walkTree true t := by
  induction hf with
  | here hmem =>
    rename_i name bs0 files subdirs
    simp only [Directory.walkTree]
    apply List.mem_append_left
    apply List.mem_map.mpr
    refine ⟨(name, bs0), List.mem_filter.mpr ⟨?_, by simp⟩, rfl⟩
    exact (List.mem_insertionSort nameLe).mpr hmem
  | there hmemdir hfsub ihsub =>
    rename_i dname sub comps0 bs0 files subdirs
    simp only [Directory.walkTree]
    apply List.mem_append_right
    apply List.mem_flatMap.mpr
    refine ⟨(dname, Directory.walkTree true sub), ?_, ?_⟩
    · apply (List.mem_insertionSort nameLe).mpr
      rw [walkForest_eq]
      exact List.mem_map.mpr ⟨(dname, sub), hmemdir, rfl⟩
    · exact List.mem_map.mpr ⟨(comps0, bs0), ihsub, rfl⟩

theorem walk_canon : ∀ (N : Nat) (t : FsTree), treeSize t ≤ N → ∀ ih : Bool,
    Directory.walkTree ih (canonTree t) = Directory.walkTree ih t := by
  intro N
  induction N with
  | zero =>
    intro t ht
    exact absurd ht (by have := treeSize_pos t; omega)
  | succ N ihN =>
    intro t ht ih
    cases t with
    | node files subdirs =>
      have hcomp : ((fun d : String × FsTree => (d.1, Directory.walkTree ih d.2))
            ∘ (fun d : String × FsTree => (d.1, canonTree d.2)))
          = fun d : String × FsTree => (d.1, Directory.walkTree ih (canonTree d.2)) := rfl
      simp only [canonTree, Directory.walkTree]
      rw [sortPairs_idem]
      apply congrArg
      rw [walkForest_eq, toList_forestOf, canonForest_eq,
        sortPairs_map (fun d => (d.1, canonTree d.2)) (fun _ => rfl),
        List.map_map, hcomp,
        sortPairs_map (fun d : String × FsTree => (d.1, Directory.walkTree ih (canonTree d.2)))
          (fun _ => rfl),
        sortPairs_idem, walkForest_eq,
        sortPairs_map (fun d => (d.1, Directory.walkTree ih d.2)) (fun _ => rfl),
        List.flatMap_map, List.flatMap_map]
      apply List.flatMap_congr
      intro d hd
      have hsize : treeSize d.2 ≤ N := by
        have hmem : (d.1, d.2) ∈ subdirs.toList := by
          have := (List.mem_insertionSort nameLe).mp hd
          simpa using this
        have := mem_toList_treeSize subdirs hmem
        simp only [treeSize] at ht
        omega
      show (Directory.walkTree ih (canonTree d.2)).map (fun e => (d.1 :: e.1, e.2))
          = (Directory.walkTree ih d.2).map (fun e => (d.1 :: e.1, e.2))
      rw [ihN d.2 hsize ih]

/-! ### Claim theorems: traversal -/

/-- **C4**: with `include_hidden = false`, the traversal behind
`computeHashList`/`computeAggregateDigest` excludes exactly the files
whose base name (the last component of the relative path) starts with
`.`: no produced entry has a dotted base name, and the
`include_hidden = false` walk is precisely the `include_hidden = true`
walk filtered by base name — so exclusion never depends on the
directory components, i.e. traversal still descends into dotted
directories.  With `include_hidden = true`, every file of the tree,
hidden or not (its last component may start with `.`), yields an
entry. -/
theorem claim4_hidden_filter (t : FsTree) :
    (∀ e ∈ Directory.get_filepaths false t,
      pyStartswith (e.1.getLastD "") "." = false) ∧
    Directory.get_filepaths false t
      = (Directory.get_filepaths true t).filter
          (fun e => !pyStartswith (e.1.getLastD "") ".") ∧
    (∀ comps bs, FileIn comps bs t → (comps, bs) ∈ Directory.get_filepaths true t) := by
  have hfilter := walk_false_filter (treeSize t) t (le_refl _)
  refine ⟨?_, hfilter, fun comps bs hf => fileIn_mem_walk_true hf⟩
  intro e he
  rw [Directory.get_filepaths, hfilter] at he
  have := (List.mem_filter.mp he).2
  simpa using this

/-- Witness for C4: a file inside a dotted directory survives the
hidden filter (its base name decides), and a hidden file at the root is
present in the `include_hidden = true` walk. -/
theorem claim4_hidden_filter_witness :
    pyStartswith (((([".d", "f"] : List String), ([1] : List Nat)).1.getLastD "")) "." = false ∧
    ([".h"], [7]) ∈ Directory.get_filepaths true
      (FsTree.node [(".h", [7])]
        (FsForest.cons ".d" (FsTree.node [("f", [1])] FsForest.nil) FsForest.nil)) := by
  refine ⟨?_, ?_⟩
  · exact (claim4_hidden_filter
      (FsTree.node [(".h", [7])]
        (FsForest.cons ".d" (FsTree.node [("f", [1])] FsForest.nil) FsForest.nil))).1
      ([".d", "f"], [1]) (by decide)
  · exact (claim4_hidden_filter
      (FsTree.node [(".h", [7])]
        (FsForest.cons ".d" (FsTree.node [("f", [1])] FsForest.nil) FsForest.nil))).2.2
      [".h"] [7] (FileIn.here (by decide))

/-- **C5**: for a fixed directory snapshot — two trees with the same
canonical form, i.e. the same files and contents up to the raw order
in which the host file system lists each directory — and a fixed
`include_hidden` flag, `computeHashList` produces identical entry
sequences and identical `lines()` output in identical order, because
the traversal sorts both the subdirectory list and the file list at
every level before use. -/
theorem claim5_determinism (t1 t2 : FsTree) (include_hidden : Bool)
    (md5hex : List Nat → String) (root : String) (hsnap : canonTree t1 = canonTree t2) :
    Directory.get_filepaths include_hidden t1 = Directory.get_filepaths include_hidden t2 ∧
    Directory.md5_list md5hex root t1 include_hidden
      = Directory.md5_list md5hex root t2 include_hidden ∧
    (Directory.md5_list md5hex root t1 include_hidden).lines
      = (Directory.md5_list md5hex root t2 include_hidden).lines := by
  have hw : Directory.walkTree include_hidden t1 = Directory.walkTree include_hidden t2 := by
    rw [← walk_canon (treeSize t1) t1 (le_refl _) include_hidden, hsnap,
      walk_canon (treeSize t2) t2 (le_refl _) include_hidden]
  refine ⟨hw, ?_, ?_⟩
  · rw [Directory.md5_list, Directory.md5_list, Directory.get_filepaths,
      Directory.get_filepaths, hw]
  · rw [Directory.md5_list, Directory.md5_list, Directory.get_filepaths,
      Directory.get_filepaths, hw]

/-- Witness for C5 on two concrete reorderings of one snapshot. -/
theorem claim5_determinism_witness :
    Directory.get_filepaths false demoTree1 = Directory.get_filepaths false demoTree2 ∧
    Directory.md5_list (fun _ => "h") "r" demoTree1 false
      = Directory.md5_list (fun _ => "h") "r" demoTree2 false ∧
    (Directory.md5_list (fun _ => "h") "r" demoTree1 false).lines
      = (Directory.md5_list (fun _ => "h") "r" demoTree2 false).lines :=
  claim5_determinism demoTree1 demoTree2 false (fun _ => "h") "r" rfl

/-- **C7**: for a tree whose traversal yields exactly one included
file, the aggregate digest of `Directory.md5` is the digest of that
file's bytes alone — the same single digest that `Directory.md5_list`
records for that file. -/
theorem claim7_single_file (md5hex : List Nat → String) (root : String) (t : FsTree)
    (include_hidden : Bool) (comps : List String) (bs : List Nat)
    (hone : Directory.get_filepaths include_hidden t = [(comps, bs)]) :
    Directory.md5 md5hex t include_hidden = md5hex bs ∧
    (Directory.md5_list md5hex root t include_hidden).hashlist
      = [(relPathStr comps, md5hex bs)] := by
  constructor
  · rw [Directory.md5, hone]
    simp
  · rw [Directory.md5_list, hone]
    rfl

/-- Witness for C7 on a one-file tree. -/
theorem claim7_single_file_witness :
    Directory.md5 (fun _ => "h") (FsTree.node [("a", [1, 2])] FsForest.nil) false = "h" ∧
    (Directory.md5_list (fun _ => "h") "r" (FsTree.node [("a", [1, 2])] FsForest.nil)
        false).hashlist
      = [("a", "h")] :=
  claim7_single_file (fun _ => "h") "r" (FsTree.node [("a", [1, 2])] FsForest.nil) false
    ["a"] [1, 2] (by decide)

/-! ### Claim theorems: compare and diff -/

theorem commonPreLen_self : ∀ a : List String, commonPreLen a a = a.length
  | [] => rfl
  | x :: xs => by simp [commonPreLen, commonPreLen_self xs]

theorem get_opcodes_self (a : List String) :
    get_opcodes a a
      = if 0 < a.length then [⟨DTag.equal, 0, a.length, 0, a.length⟩] else [] := by
  simp [get_opcodes, commonPreLen_self, List.drop_length, commonPreLen]

theorem get_grouped_self_zero (a : List String) : get_grouped_opcodes 0 a a = [] := by
  by_cases hl : 0 < a.length
  · simp [get_grouped_opcodes, get_opcodes_self, hl, adjustFirst, adjustLast, groupLoop,
      Nat.sub_zero, Nat.zero_max, Nat.add_zero, Nat.min_self, Nat.sub_self,
      List.getLast?_singleton, List.dropLast_single]
  · simp [get_grouped_opcodes, get_opcodes_self, hl, adjustFirst, adjustLast, groupLoop,
      Nat.sub_zero, Nat.zero_max, Nat.add_zero, Nat.min_self, Nat.sub_self,
      List.getLast?_singleton, List.dropLast_single]

theorem unified_diff_self {a b : List String} (hab : a = b) (fromfile tofile : String) :
    unified_diff a b fromfile tofile 0 = [] := by
  subst hab
  rw [unified_diff, get_grouped_self_zero]

theorem diff_lines_eq {g1 g2 : HashList} (h : g1.lines = g2.lines) :
    HashList.diff g1 g2 = "" := by
  rw [HashList.diff, unified_diff_self h]
  rfl

theorem diff_header_ne (s : String) :
    "Les sommes md5 sont différentes!\n\n" ++ s ≠ "Les sommes md5 sont identiques.\n" := by
  intro hcon
  have hlen := congrArg String.length hcon
  rw [String.length_append] at hlen
  have h1 : ("Les sommes md5 sont différentes!\n\n" : String).length = 34 := by decide
  have h2 : ("Les sommes md5 sont identiques.\n" : String).length = 32 := by decide
  omega

/-- **C6**: `compare` returns the "identical" message verbatim exactly
when `equals` is true, and otherwise returns the difference header
followed by the `diff` of the two (by then sorted) lists; `diff`
renders the justified `lines()` of the two lists as a unified diff
with zero context lines labelled by the origin labels, and the diff of
two lists with identical `lines()` output (in particular of a list
against itself) is empty. -/
theorem claim6_compare_diff (h1 h2 g1 g2 : HashList) :
    ((HashList.compare h1 h2).2.2 = "Les sommes md5 sont identiques.\n"
      ↔ HashList.equals h1 h2 = true) ∧
    (HashList.equals h1 h2 = false →
      (HashList.compare h1 h2).2.2
        = "Les sommes md5 sont différentes!\n\n"
          ++ HashList.diff { h1 with hashlist := pySort h1.hashlist }
               { h2 with hashlist := pySort h2.hashlist }) ∧
    (HashList.lines g1 = HashList.lines g2 → HashList.diff g1 g2 = "") := by
  have hpos : HashList.equals h1 h2 = true →
      (HashList.compare h1 h2).2.2 = "Les sommes md5 sont identiques.\n" := by
    intro hb
    rw [HashList.compare, if_pos (show (HashList.eqMut h1 h2).2.2 = true from hb)]
  have hneg : HashList.equals h1 h2 = false →
      (HashList.compare h1 h2).2.2
        = "Les sommes md5 sont différentes!\n\n"
          ++ HashList.diff { h1 with hashlist := pySort h1.hashlist }
               { h2 with hashlist := pySort h2.hashlist } := by
    intro hb
    rw [HashList.compare,
      if_neg (by rw [show (HashList.eqMut h1 h2).2.2 = HashList.equals h1 h2 from rfl, hb]
                 exact Bool.false_ne_true)]
    rfl
  refine ⟨⟨?_, hpos⟩, hneg, diff_lines_eq⟩
  intro hmsg
  cases hb : HashList.equals h1 h2 with
  | true => rfl
  | false =>
    rw [hneg hb] at hmsg
    exact absurd hmsg (diff_header_ne _)

/-- Witness for C6: a concrete unequal pair takes the header-plus-diff
branch, and the diff of a list against itself is empty. -/
theorem claim6_compare_diff_witness :
    (HashList.compare ⟨[("a", "1")], some "p"⟩ ⟨[("b", "2")], some "q"⟩).2.2
      = "Les sommes md5 sont différentes!\n\n"
        ++ HashList.diff ⟨pySort [("a", "1")], some "p"⟩ ⟨pySort [("b", "2")], some "q"⟩
    ∧ HashList.diff ⟨[("a", "1")], some "p"⟩ ⟨[("a", "1")], some "p"⟩ = "" :=
  ⟨(claim6_compare_diff ⟨[("a", "1")], some "p"⟩ ⟨[("b", "2")], some "q"⟩
      ⟨[("a", "1")], some "p"⟩ ⟨[("a", "1")], some "p"⟩).2.1 (by decide),
   (claim6_compare_diff ⟨[("a", "1")], some "p"⟩ ⟨[("b", "2")], some "q"⟩
      ⟨[("a", "1")], some "p"⟩ ⟨[("a", "1")], some "p"⟩).2.2 rfl⟩

/-- Witness for C1 at two permuted concrete lists. -/
theorem claim1_equals_multiset_witness :
    HashList.equals ⟨[("a", "1"), ("b", "2")], none⟩ ⟨[("b", "2"), ("a", "1")], some "x"⟩
      = true :=
  (claim1_equals_multiset ⟨[("a", "1"), ("b", "2")], none⟩
    ⟨[("b", "2"), ("a", "1")], some "x"⟩).1.mpr (by decide)
